import Mathlib

/-!
Verification development for the Markov-chain / velocity-projection core of
`dynamo/tools/cell_velocities.py`.

The Python functions are shallowly embedded over exact rationals (`ℚ`).
Floating-point values are modelled by rationals; the numerical tolerances that
the code uses (`np.isclose` with `rtol = 1e-5`, `atol = 1e-8`) are carried over
as exact rational bounds.  The eigen-decomposition performed by
`scipy.linalg.eig` is not computable exactly, so the eigen branch of
`diffusion` is parameterised by the list of (eigenvalue, left-eigenvector)
pairs the solver returns; theorems that depend on the decomposition take the
defining left-eigenvector property (`IsLeftEigDecomp`) as a hypothesis and
concrete instances supply explicit exact decompositions.  Likewise the float
`np.exp` and `scipy.linalg.norm` are abstracted as function parameters
(`expf`, `normf`): every property proved here holds for any positive `expf`,
which in particular covers the true exponential.
-/

namespace Dynamo

/-- Number of columns and rows use `Fin`-indexed rational matrices. -/
abbrev Mat (n : ℕ) := Matrix (Fin n) (Fin n) ℚ

/-- `np.isclose(eigenvalue, 1)` with numpy defaults `rtol = 1e-5`, `atol = 1e-8`:
the test `|a - 1| <= atol + rtol * |1|` from `diffusion` (line 317). -/
def npIsClose1 (a : ℚ) : Bool := |a - 1| ≤ 1/100000000 + 1/100000

/-- `np.isclose(mu, 0)` with numpy defaults: `|x| <= atol + rtol * 0`. -/
def npIsCloseZero (x : ℚ) : Bool := |x| ≤ 1/100000000

/-- The clipping step of `diffusion` (lines 321-323): entries that are
negative but within floating tolerance of zero are set to zero. -/
def clipNegNoise (x : ℚ) : ℚ := if npIsCloseZero x ∧ x < 0 then 0 else x

/-- The eigenvalue/eigenvector pairs returned by `scp.linalg.eig(M, left=True,
right=False)`, modelled as a list of (eigenvalue, left eigenvector) pairs.
The pairs are a valid output of the solver for `M` when each vector is a left
eigenvector of `M` for its eigenvalue. -/
def IsLeftEigDecomp {n : ℕ} (M : Mat n) (pairs : List (ℚ × (Fin n → ℚ))) : Prop :=
  ∀ p ∈ pairs, ∀ j, (∑ i, p.2 i * M i j) = p.1 * p.2 j

/-- The columns `eigenvector[:, eigenvalue_1_ind]` selected in `diffusion`
(line 317-318): the eigenvectors whose eigenvalue is close to 1. -/
def eigvecColumns {n : ℕ} (pairs : List (ℚ × (Fin n → ℚ))) : List (Fin n → ℚ) :=
  (pairs.filter fun p => npIsClose1 p.1).map Prod.snd

/-- The `steps is None` branch of `diffusion` (lines 311-323): select the
eigenvectors with eigenvalue close to 1, divide by their total entry sum
(`np.sum(eigenvector[:, eigenvalue_1_ind])`), and clip negative floating
noise to zero.  The result is returned as a list of columns: numpy returns
the two-dimensional array `eigenvector[:, eigenvalue_1_ind]` of shape
`(n, m)` where `m` is the number of selected eigenvalues.  The code contains
no raise statement in this branch, so the model is total: when no eigenvalue
is close to 1 the selection is empty and an empty (`n` by `0`) result is
returned. -/
def diffusionEigenBranch {n : ℕ} (pairs : List (ℚ × (Fin n → ℚ))) : List (Fin n → ℚ) :=
  let sel := eigvecColumns pairs
  let S : ℚ := (sel.map fun v => ∑ i, v i).sum
  sel.map fun v => fun i => clipNegNoise (v i / S)

/-- The backward transform of `diffusion` (lines 307-309): `M = M.T` followed
by `M = M / M.sum(1)`.  Numpy broadcasting aligns the length-`n` vector
`M.sum(1)` with the LAST axis of `M`, so entry `(i, j)` is divided by the
row sum of row `j` of the transposed matrix (the column sum `∑ k, M k j` of
the original), not by the row sum of row `i`. -/
def backwardTransform {n : ℕ} (M : Mat n) : Mat n :=
  Matrix.of fun i j => M j i / (∑ k, M k j)

/-- The transform the spec describes for the backward branch: transpose `M`
and renormalize each ROW of the transpose to sum to 1 (entry `(i, j)` divided
by the row sum of row `i` of the transpose).  Written from the spec's words
for comparison with `backwardTransform`. -/
def specRowNormalizedTranspose {n : ℕ} (M : Mat n) : Mat n :=
  Matrix.of fun i j => M j i / (∑ k, M k i)

/-- `diffusion(M, P0=None, steps=None, backward)` (lines 287-328), eigen
branch, with the eigen-solver supplied as a parameter `eig`. -/
def diffusion_model {n : ℕ} (eig : Mat n → List (ℚ × (Fin n → ℚ)))
    (M : Mat n) (backward : Bool) : List (Fin n → ℚ) :=
  let Mb := if backward then backwardTransform M else M
  diffusionEigenBranch (eig Mb)

/-- The `steps` branch of `diffusion` with a supplied initial distribution
(line 326, `P0.dot(np.linalg.matrix_power(M, steps))`). -/
def diffusionStepsP0 {n : ℕ} (M : Mat n) (p : Fin n → ℚ) (steps : ℕ) : Fin n → ℚ :=
  fun j => ∑ i, p i * (M ^ steps) i j

/-- The `steps` branch of `diffusion` with `P0=None` (line 326,
`np.nanmean(M.dot(np.linalg.matrix_power(M, steps)), 0)`): the columnwise
mean of `M · M^steps`.  On matrices without NaN entries `np.nanmean` is the
ordinary mean. -/
def diffusionStepsAvg {n : ℕ} (M : Mat n) (steps : ℕ) : Fin n → ℚ :=
  fun j => (∑ i, (M * M ^ steps) i j) / n

/-- Written from the spec's words for comparison: the average of the rows of
`M` raised to the power `steps` (`M` applied to itself exactly `steps`
times). -/
def specRowMeanPow {n : ℕ} (M : Mat n) (k : ℕ) : Fin n → ℚ :=
  fun j => (∑ i, (M ^ k) i j) / n

/-- `expected_return_time(M, backward)` (lines 331-350): the elementwise
reciprocal `1 / steady_state` of `diffusion(M, P0=None, steps=None,
backward)`. -/
def expected_return_time_model {n : ℕ} (eig : Mat n → List (ℚ × (Fin n → ℚ)))
    (M : Mat n) (backward : Bool) : List (Fin n → ℚ) :=
  (diffusion_model eig M backward).map fun v => fun i => 1 / v i

/-- Concrete matrices and eigen-decompositions used by the concrete theorems. -/
def MI2 : Mat 2 := Matrix.of ![![1, 0], ![0, 1]]

def pairsI2 : List (ℚ × (Fin 2 → ℚ)) := [((1 : ℚ), ![1, 0]), ((1 : ℚ), ![0, 1])]

def M3 : Mat 1 := Matrix.of ![![0]]

def pairs3 : List (ℚ × (Fin 1 → ℚ)) := [((0 : ℚ), fun _ => 1)]

def M4 : Mat 2 := Matrix.of ![![1/2, 1/2], ![1, 0]]

def pairsC4code : List (ℚ × (Fin 2 → ℚ)) := [((1 : ℚ), ![1, 2]), ((-2/3 : ℚ), ![1, -3])]

def pairsC4spec : List (ℚ × (Fin 2 → ℚ)) := [((1 : ℚ), ![1, 2/3]), ((-2/3 : ℚ), ![1, -1])]

def M5 : Mat 2 := Matrix.of ![![1, 1], ![0, 1]]

def M1 : Mat 1 := Matrix.of ![![1]]

def pairs1 : List (ℚ × (Fin 1 → ℚ)) := [((1 : ℚ), fun _ => 1)]

/-- `np.sign` on a rational. -/
def signQ (x : ℚ) : ℚ := if 0 < x then 1 else if x < 0 then -1 else 0

/-- `max(abs(vals))` over a list (the softmax bandwidth `sigma` of
`_empirical_vec`, lines 388 and 401).  The fold seed 0 is harmless: absolute
values are nonnegative, so for a nonempty list the fold equals the true
maximum. -/
def maxAbsList (l : List ℚ) : ℚ := (l.map fun x => |x|).foldr max 0

/-- The `neg_cells_trick=False` branch of `_empirical_vec` (lines 401-405):
`sigma = max(abs(i_vals))`, `i_prob = exp(i_vals / sigma) / sum(...)`.  The
float `np.exp` is the parameter `expf`. -/
def empiricalValsPlain (expf : ℚ → ℚ) (i_vals : List ℚ) : List ℚ :=
  let sigma := maxAbsList i_vals
  let e := i_vals.map fun v => expf (v / sigma)
  e.map fun x => x / e.sum

/-- The sub-list of correlations whose sign is `s` (the `cur_ind` selection
`np.where(np.sign(i_vals) == sig)` of line 383). -/
def negGroupVals (i_vals : List ℚ) (s : ℚ) : List ℚ :=
  i_vals.filter fun v => decide (signQ v = s)

/-- The unnormalized softmax weight of a correlation `v` inside its sign
group (`exp(abs(cur_i_vals) / sigma)`, line 389). -/
def negGroupWeight (expf : ℚ → ℚ) (i_vals : List ℚ) (s : ℚ) (v : ℚ) : ℚ :=
  expf (|v| / maxAbsList (negGroupVals i_vals s))

/-- The softmax denominator of a sign group (`sum(exp_i_vals)`, line 390). -/
def negGroupDenom (expf : ℚ → ℚ) (i_vals : List ℚ) (s : ℚ) : ℚ :=
  ((negGroupVals i_vals s).map (negGroupWeight expf i_vals s)).sum

/-- The `neg_cells_trick=True` branch of `_empirical_vec` (lines 380-392): the
values written into row `i` of the transition matrix.  Position `j` receives
`sig * i_prob[j]` where `i_prob` is the softmax over the group of neighbors
sharing the sign `sig` of correlation `j`; positions with zero correlation
are left at their initialized value 0.  The code scatters group results by
index (`vals[val_ind_vec[cur_ind]] = sig * i_prob`); the model computes the
same assignment positionally. -/
def empiricalValsNeg (expf : ℚ → ℚ) (i_vals : List ℚ) : List ℚ :=
  i_vals.map fun v =>
    if signQ v = 0 then 0
    else signQ v * (negGroupWeight expf i_vals (signQ v) v / negGroupDenom expf i_vals (signQ v))

/-- Scalar multiplication of a 2D embedding vector. -/
def scaleV (c : ℚ) (d : ℚ × ℚ) : ℚ × ℚ := (c * d.1, c * d.2)

/-- A displacement divided by its norm (`numerator / hstack((denominator,
denominator))`, lines 396-399 and 409-411); the float `scipy.linalg.norm`
is the parameter `normf`. -/
def unitize (normf : ℚ × ℚ → ℚ) (d : ℚ × ℚ) : ℚ × ℚ := (d.1 / normf d, d.2 / normf d)

/-- The drift row of the `neg_cells_trick=False` branch (lines 407-411):
`delta_X[i] = (i_prob - 1/knn).T.dot(numerator / ...)` where row `j` of
`numerator` is the embedding displacement to neighbor `j`. -/
def deltaPlain (expf : ℚ → ℚ) (normf : ℚ × ℚ → ℚ)
    (i_vals : List ℚ) (disp : List (ℚ × ℚ)) : ℚ × ℚ :=
  let probs := empiricalValsPlain expf i_vals
  let k : ℚ := i_vals.length
  (((probs.zip disp).map fun pd => scaleV (pd.1 - 1 / k) (unitize normf pd.2)).sum)

/-- One sign group's contribution to the drift row in the
`neg_cells_trick=True` branch (lines 382-399): softmax weights within the
group, displacements multiplied by `sig`, uniform baseline `1/len(cur_ind)`,
and the whole group contribution scaled by 0.5; an empty group contributes
nothing (the `continue` of line 385). -/
def deltaNegGroup (expf : ℚ → ℚ) (normf : ℚ × ℚ → ℚ)
    (i_vals : List ℚ) (disp : List (ℚ × ℚ)) (s : ℚ) : ℚ × ℚ :=
  let g := (i_vals.zip disp).filter fun p => decide (signQ p.1 = s)
  if g.isEmpty then (0, 0) else
  let sigma := maxAbsList (g.map Prod.fst)
  let D := (g.map fun p => expf (|p.1| / sigma)).sum
  scaleV (1/2)
    ((g.map fun p =>
      scaleV (expf (|p.1| / sigma) / D - 1 / (g.length : ℚ))
        (unitize normf (scaleV s p.2))).sum)

/-- The drift row of the `neg_cells_trick=True` branch: the sum of the two
group contributions, accumulated with `+=` into a zero-initialized row (the
loop `for sig in [-1, 1]`). -/
def deltaNegTrick (expf : ℚ → ℚ) (normf : ℚ × ℚ → ℚ)
    (i_vals : List ℚ) (disp : List (ℚ × ℚ)) : ℚ × ℚ :=
  ((deltaNegGroup expf normf i_vals disp (-1)).1 + (deltaNegGroup expf normf i_vals disp 1).1,
   (deltaNegGroup expf normf i_vals disp (-1)).2 + (deltaNegGroup expf normf i_vals disp 1).2)

/-- A concrete positive stand-in for the float exponential, used by the
concrete instances (any positive function witnesses the parameterised
theorems). -/
def expf0 : ℚ → ℚ := fun x => 1 + |x|

/-- A concrete stand-in for the float Euclidean norm. -/
def normf0 : ℚ × ℚ → ℚ := fun d => |d.1| + |d.2|

/-- `np.random.choice([+1, -1])`: one sign drawn from the seeded stream
(`permute_rows_nsign`, line 457); the draw parity selects the sign. -/
def chooseSign (d : ℕ) : ℚ := if d % 2 = 0 then 1 else -1

/-- `np.random.shuffle(A[i, :])` (line 456), driven by the stream of draws
of the seeded generator: each step selects the position `draw mod length`
and removes that element.  The draws are a parameter because the Mersenne
Twister stream itself is outside the embedded code; any draw stream yields a
permutation, which is the property the claims use. -/
def shuffleDraws : List ℕ → List ℚ → List ℚ
  | _, [] => []
  | [], l => l
  | d :: ds, l =>
    let x := l.getD (d % l.length) 0
    x :: shuffleDraws ds (l.erase x)

/-- `A[i, :] * np.random.choice(plmi, size=A.shape[1])` (line 457): each
entry multiplied by an independently drawn sign, with `k` indexing into the
sign stream. -/
def applySigns (signDraws : ℕ → ℕ) : ℕ → List ℚ → List ℚ
  | _, [] => []
  | k, x :: xs => chooseSign (signDraws k) * x :: applySigns signDraws (k + 1) xs

/-- One row of `permute_rows_nsign` (lines 455-457): shuffle the row in
place, then flip each entry's sign independently. -/
def permuteRowNsign (shufDraws : List ℕ) (signDraws : ℕ → ℕ) (row : List ℚ) : List ℚ :=
  applySigns signDraws 0 (shuffleDraws shufDraws row)

def permuteRowsNsignGo (draws : ℕ → List ℕ × (ℕ → ℕ)) : ℕ → List (List ℚ) → List (List ℚ)
  | _, [] => []
  | i, r :: rs => permuteRowNsign (draws i).1 (draws i).2 r ::
      permuteRowsNsignGo draws (i + 1) rs

/-- `permute_rows_nsign(A)` (lines 439-457): every row is shuffled and
sign-flipped independently, row `i` consuming the draws `draws i` of the
generator seeded beforehand by `numba_random_seed` (lines 421-436).  The
draw streams are a deterministic function of the seed, so fixing the seed
fixes `draws`. -/
def permute_rows_nsign_model (draws : ℕ → List ℕ × (ℕ → ℕ))
    (A : List (List ℚ)) : List (List ℚ) :=
  permuteRowsNsignGo draws 0 A

/-- Concrete draw streams for the C8 witness. -/
def draws0 : ℕ → List ℕ × (ℕ → ℕ) := fun _ => ([0], fun _ => 1)

/-- The Python exception kinds relevant to the dispatch of
`cell_velocities`. -/
inductive PyErr
  | unboundLocal
  | nameGone
  | invalidInput
deriving DecidableEq

/-- The observable outcome of one `cell_velocities` call: the container keys
written (in order) and the exception raised, if any. -/
structure CVOutcome where
  writes : List String
  error : Option PyErr
deriving DecidableEq

/-- The three method names handled by the dispatch of `cell_velocities`
(lines 108, 164, 170). -/
def knownKernelMethods : List String := ["analytical", "empirical", "transform"]

/-- Write/error skeleton of `cell_velocities` (lines 72-185) for a call with
default flags (`calc_rnd_vel=False`, `vkey` resolving to `velocity_S`, a
precomputed neighbor graph, `n_pca_components` set): the function performs
NO validation of `method` at entry.  Gene selection
(`set_velocity_genes`, lines 87-90) always writes the per-gene velocity mask
into the container; then the three `if/elif` branches bind `T`, `delta_X`
and the grid outputs.  A method that matches no branch leaves `T` unbound,
so the unconditional store `adata.uns['transition_matrix'] = T` (line 176)
raises `UnboundLocalError` — after the preparation writes, before any result
key is stored.  The `transform` branch itself references the undefined name
`umap_trans` (line 171) and raises `NameError`. -/
def cell_velocities_skeleton (method : String) : CVOutcome :=
  let prepWrites := ["var.use_for_velocity"]
  if method = "analytical" then
    { writes := prepWrites ++ ["obsm.X_pca", "obsm.velocity_pca", "uns.kmc",
        "uns.transition_matrix", "obsm.velocity_umap", "uns.grid_velocity_umap"],
      error := none }
  else if method = "empirical" then
    { writes := prepWrites ++ ["uns.transition_matrix", "obsm.velocity_umap",
        "uns.grid_velocity_umap"],
      error := none }
  else if method = "transform" then
    { writes := prepWrites, error := some PyErr.nameGone }
  else
    { writes := prepWrites, error := some PyErr.unboundLocal }

/-- The clipping step leaves nonnegative entries unchanged. -/
lemma clipNegNoise_of_nonneg {x : ℚ} (hx : 0 ≤ x) : clipNegNoise x = x := by
  unfold clipNegNoise
  rw [if_neg]
  rintro ⟨-, hlt⟩
  exact absurd hlt (not_lt.mpr hx)

/-- If no pair passes the eigenvalue filter, no column is selected. -/
lemma eigvecColumns_eq_nil {n : ℕ} {pairs : List (ℚ × (Fin n → ℚ))}
    (h : ∀ p ∈ pairs, npIsClose1 p.1 = false) : eigvecColumns pairs = [] := by
  unfold eigvecColumns
  induction pairs with
  | nil => rfl
  | cons a t ih =>
    have ha := h a (List.mem_cons_self a t)
    rw [List.filter_cons, if_neg (by simp [ha])]
    exact ih fun p hp => h p (List.mem_cons_of_mem a hp)

/-- With `backward=False` the eigen branch is applied to `M` itself. -/
lemma diffusion_model_false {n : ℕ} (eig : Mat n → List (ℚ × (Fin n → ℚ)))
    (M : Mat n) : diffusion_model eig M false = diffusionEigenBranch (eig M) := rfl

/-- C2 counterexample: the 2-by-2 identity matrix is row-stochastic, and
`[(1, e0), (1, e1)]` is a valid complete left eigen-decomposition of it (both
eigenvalues are exactly 1, as the eigen solver returns for the identity), yet
`diffusion` returns TWO normalized columns, not a one-dimensional probability
vector of length 2. -/
theorem diffusion_prob_vector_cex :
    IsLeftEigDecomp MI2 pairsI2 ∧ pairsI2.length = 2 ∧
      (∀ i, (∑ j, MI2 i j) = 1) ∧
      (diffusion_model (fun _ => pairsI2) MI2 false).length = 2 ∧
      (diffusion_model (fun _ => pairsI2) MI2 false).length ≠ 1 := by
  refine ⟨?_, rfl, ?_, ?_, ?_⟩
  · intro p hp j
    fin_cases hp <;> fin_cases j <;>
      norm_num [pairsI2, MI2, Fin.sum_univ_two, Matrix.of_apply]
  · intro i
    fin_cases i <;> norm_num [MI2, Fin.sum_univ_two, Matrix.of_apply]
  · norm_num [diffusion_model, diffusionEigenBranch, eigvecColumns, pairsI2,
      npIsClose1, List.filter]
  · norm_num [diffusion_model, diffusionEigenBranch, eigvecColumns, pairsI2,
      npIsClose1, List.filter]

/-- C2 amended: when the eigenvalue filter selects exactly one pair, with
eigenvalue exactly 1 and a nonnegative real eigenvector of positive entry
sum, `diffusion(M, steps=None, backward=False)` returns a single column mu
with sum 1, nonnegative entries and mu·M = mu.  (In general the eigen branch
returns one column per eigenvalue within tolerance of 1, jointly normalized
so that the entries of all columns together sum to 1.) -/
theorem diffusion_single_eigvec_prob_amended {n : ℕ}
    (pairs : List (ℚ × (Fin n → ℚ))) (M : Mat n) (v : Fin n → ℚ)
    (hdecomp : IsLeftEigDecomp M pairs)
    (hfilter : pairs.filter (fun p => npIsClose1 p.1) = [(1, v)])
    (hnn : ∀ i, 0 ≤ v i) (hsum : 0 < ∑ i, v i) :
    ∃ μ, diffusion_model (fun _ => pairs) M false = [μ] ∧
      (∑ i, μ i) = 1 ∧ (∀ i, 0 ≤ μ i) ∧ (∀ j, (∑ i, μ i * M i j) = μ j) := by
  have hS : (∑ i, v i) ≠ 0 := ne_of_gt hsum
  have hmem : ((1 : ℚ), v) ∈ pairs := by
    apply List.mem_of_mem_filter (p := fun p => npIsClose1 p.1)
    rw [hfilter]; exact List.mem_singleton.mpr rfl
  have heig := hdecomp (1, v) hmem
  refine ⟨fun i => v i / (∑ k, v k), ?_, ?_, ?_, ?_⟩
  · rw [diffusion_model_false]
    simp only [diffusionEigenBranch, eigvecColumns]
    rw [hfilter]
    simp only [List.map_cons, List.map_nil, List.sum_cons, List.sum_nil, add_zero]
    congr 1
    funext i
    exact clipNegNoise_of_nonneg (div_nonneg (hnn i) (le_of_lt hsum))
  · rw [← Finset.sum_div, div_self hS]
  · exact fun i => div_nonneg (hnn i) (le_of_lt hsum)
  · intro j
    have : (∑ i, v i / (∑ k, v k) * M i j) = (∑ i, v i * M i j) / (∑ k, v k) := by
      rw [Finset.sum_div]
      exact Finset.sum_congr rfl fun i _ => div_mul_eq_mul_div (v i) _ (M i j)
    rw [this, heig j, one_mul]

/-- C2 amended, witness at the 1-by-1 matrix `[[1]]` with decomposition
`[(1, [1])]`. -/
theorem diffusion_single_eigvec_prob_amended_witness :
    IsLeftEigDecomp M1 pairs1 ∧
      pairs1.filter (fun p => npIsClose1 p.1) = [(1, fun _ => 1)] ∧
      (∀ i, (0 : ℚ) ≤ (fun _ : Fin 1 => (1 : ℚ)) i) ∧
      (0 : ℚ) < (∑ i : Fin 1, (fun _ : Fin 1 => (1 : ℚ)) i) ∧
      ∃ μ, diffusion_model (fun _ => pairs1) M1 false = [μ] ∧
        (∑ i, μ i) = 1 ∧ (∀ i, 0 ≤ μ i) ∧ (∀ j, (∑ i, μ i * M1 i j) = μ j) := by
  have h1 : IsLeftEigDecomp M1 pairs1 := by
    intro p hp j
    fin_cases hp
    fin_cases j
    norm_num [pairs1, M1, Fin.sum_univ_one, Matrix.of_apply]
  have h2 : pairs1.filter (fun p => npIsClose1 p.1) = [(1, fun _ => 1)] := by
    norm_num [pairs1, List.filter, npIsClose1]
  have h3 : ∀ i, (0 : ℚ) ≤ (fun _ : Fin 1 => (1 : ℚ)) i := fun _ => zero_le_one
  have h4 : (0 : ℚ) < (∑ i : Fin 1, (fun _ : Fin 1 => (1 : ℚ)) i) := by
    norm_num [Fin.sum_univ_one]
  exact ⟨h1, h2, h3, h4,
    diffusion_single_eigvec_prob_amended pairs1 M1 (fun _ => 1) h1 h2 h3 h4⟩

/-- C3 counterexample: the 1-by-1 zero matrix has the valid complete left
eigen-decomposition `[(0, [1])]`; no eigenvalue is within tolerance of 1,
and `diffusion` RETURNS the empty (1-by-0) array — there is no raise
statement in this branch, so no error is produced. -/
theorem diffusion_no_eig_one_returns_value_cex :
    IsLeftEigDecomp M3 pairs3 ∧ pairs3.length = 1 ∧
      (∀ p ∈ pairs3, npIsClose1 p.1 = false) ∧
      (diffusion_model (fun _ => pairs3) M3 false).length = 0 := by
  refine ⟨?_, rfl, ?_, ?_⟩
  · intro p hp j
    fin_cases hp
    fin_cases j
    norm_num [pairs3, M3, Fin.sum_univ_one, Matrix.of_apply]
  · intro p hp
    fin_cases hp
    norm_num [npIsClose1]
  · norm_num [diffusion_model, diffusionEigenBranch, eigvecColumns, pairs3,
      npIsClose1, List.filter]

/-- C3 amended: when the eigen solver reports no eigenvalue within tolerance
of 1, `diffusion(M, steps=None)` silently returns the empty n-by-0 result
(zero selected columns) instead of raising a numerical-degeneracy error. -/
theorem diffusion_no_eig_one_empty_amended {n : ℕ}
    (eig : Mat n → List (ℚ × (Fin n → ℚ))) (M : Mat n)
    (h : ∀ p ∈ eig M, npIsClose1 p.1 = false) :
    diffusion_model eig M false = [] := by
  rw [diffusion_model_false]
  simp only [diffusionEigenBranch]
  rw [eigvecColumns_eq_nil h]
  rfl

/-- C3 amended, witness at the 1-by-1 zero matrix. -/
theorem diffusion_no_eig_one_empty_amended_witness :
    (∀ p ∈ (fun _ : Mat 1 => pairs3) M3, npIsClose1 p.1 = false) ∧
      diffusion_model (fun _ => pairs3) M3 false = [] := by
  have h : ∀ p ∈ (fun _ : Mat 1 => pairs3) M3, npIsClose1 p.1 = false := by
    intro p hp
    fin_cases hp
    norm_num [npIsClose1]
  exact ⟨h, diffusion_no_eig_one_empty_amended (fun _ => pairs3) M3 h⟩

/-- C4: evaluation of the backward branch at the row-stochastic matrix
`M4 = [[1/2, 1/2], [1, 0]]` (whose transpose has no zero rows).  The code's
`M.T / M.T.sum(1)` broadcasts the row-sum vector along the LAST axis, so it
is NOT the row-renormalized transpose: row 0 of the code's matrix sums to
7/3, and with valid left eigen-decompositions of both matrices, the code's
backward stationary distribution starts with 1/3 while the stationary
distribution of the row-renormalized transpose starts with 3/5. -/
theorem diffusion_backward_wrong_axis_bug :
    (∀ i, (∑ j, M4 i j) = 1) ∧
      (∀ j, ∃ i, M4 i j ≠ 0) ∧
      IsLeftEigDecomp (backwardTransform M4) pairsC4code ∧
      IsLeftEigDecomp (specRowNormalizedTranspose M4) pairsC4spec ∧
      (∑ j, backwardTransform M4 0 j) = 7/3 ∧
      ((diffusion_model (fun _ => pairsC4code) M4 true).getD 0 (fun _ => 0)) 0 = 1/3 ∧
      ((diffusion_model (fun _ => pairsC4spec) (specRowNormalizedTranspose M4) false).getD 0
          (fun _ => 0)) 0 = 3/5 ∧
      ((diffusion_model (fun _ => pairsC4code) M4 true).getD 0 (fun _ => 0)) 0 ≠
        ((diffusion_model (fun _ => pairsC4spec) (specRowNormalizedTranspose M4) false).getD 0
          (fun _ => 0)) 0 := by
  have hcA : npIsClose1 1 = true := by norm_num [npIsClose1]
  have hcB : npIsClose1 (-2/3 : ℚ) = false := by
    norm_num [npIsClose1]
    rw [abs_of_pos] <;> norm_num
  have h6 :
      ((diffusion_model (fun _ => pairsC4code) M4 true).getD 0 (fun _ => 0)) 0 = 1/3 := by
    simp only [diffusion_model, diffusionEigenBranch, eigvecColumns, pairsC4code,
      List.filter_cons, List.filter_nil, hcA, hcB, if_true, if_false,
      Bool.false_eq_true, List.map_cons, List.map_nil, List.sum_cons,
      List.sum_nil, List.getD, List.get?]
    norm_num [clipNegNoise, npIsCloseZero, Fin.sum_univ_two]
  have h7 :
      ((diffusion_model (fun _ => pairsC4spec) (specRowNormalizedTranspose M4) false).getD 0
          (fun _ => 0)) 0 = 3/5 := by
    simp only [diffusion_model, diffusionEigenBranch, eigvecColumns, pairsC4spec,
      List.filter_cons, List.filter_nil, hcA, hcB, if_true, if_false,
      Bool.false_eq_true, List.map_cons, List.map_nil, List.sum_cons,
      List.sum_nil, List.getD, List.get?]
    norm_num [clipNegNoise, npIsCloseZero, Fin.sum_univ_two]
  refine ⟨?_, ?_, ?_, ?_, ?_, h6, h7, ?_⟩
  · intro i
    fin_cases i <;> norm_num [M4, Fin.sum_univ_two, Matrix.of_apply]
  · intro j
    fin_cases j
    · exact ⟨0, by norm_num [M4, Matrix.of_apply]⟩
    · exact ⟨0, by norm_num [M4, Matrix.of_apply]⟩
  · intro p hp j
    fin_cases hp <;> fin_cases j <;>
      norm_num [pairsC4code, backwardTransform, M4, Fin.sum_univ_two, Matrix.of_apply]
  · intro p hp j
    fin_cases hp <;> fin_cases j <;>
      norm_num [pairsC4spec, specRowNormalizedTranspose, M4, Fin.sum_univ_two,
        Matrix.of_apply]
  · norm_num [backwardTransform, M4, Fin.sum_univ_two, Matrix.of_apply]
  · rw [h6, h7]; norm_num

/-- C5 counterexample: for `M5 = [[1, 1], [0, 1]]` and `steps = 1`, the
`P0=None` branch `np.nanmean(M.dot(matrix_power(M, steps)), 0)` averages the
rows of `M^2` (entry 1 is 3/2), not the rows of `M^1` (entry 1 is 1): the
matrix is applied `steps + 1` times, not exactly `steps` times. -/
theorem diffusion_steps_power_cex :
    diffusionStepsAvg M5 1 1 = 3/2 ∧ specRowMeanPow M5 1 1 = 1 ∧
      diffusionStepsAvg M5 1 1 ≠ specRowMeanPow M5 1 1 := by
  have h1 : diffusionStepsAvg M5 1 1 = 3/2 := by
    norm_num [diffusionStepsAvg, M5, Fin.sum_univ_two, Matrix.mul_apply,
      pow_succ, pow_zero, Matrix.one_apply, Matrix.of_apply]
  have h2 : specRowMeanPow M5 1 1 = 1 := by
    norm_num [specRowMeanPow, M5, Fin.sum_univ_two, pow_succ, pow_zero,
      Matrix.mul_apply, Matrix.one_apply, Matrix.of_apply]
  exact ⟨h1, h2, by rw [h1, h2]; norm_num⟩

/-- C5 amended: `diffusion(M, P0=p, steps=k)` returns the vector-matrix
product `p · M^k`, and `diffusion(M, P0=None, steps=k)` returns the average
of the rows of `M^(k+1)` — the matrix is applied `k + 1` times. -/
theorem diffusion_steps_amended {n : ℕ} (M : Mat n) (p : Fin n → ℚ) (steps : ℕ) :
    diffusionStepsP0 M p steps = Matrix.vecMul p (M ^ steps) ∧
      diffusionStepsAvg M steps = specRowMeanPow M (steps + 1) := by
  constructor
  · funext j
    simp [diffusionStepsP0, Matrix.vecMul, Matrix.dotProduct]
  · funext j
    simp only [diffusionStepsAvg, specRowMeanPow]
    rw [← pow_succ']

/-- Entrywise form of the reciprocal: the `c`-th column of the mapped list at
index `i` is the reciprocal of the `c`-th column of the original at `i`,
with the default column `fun _ => 0` mapping to itself since `1 / 0 = 0`
in `ℚ`. -/
lemma getD_map_reciprocal {n : ℕ} (l : List (Fin n → ℚ)) (c : ℕ) (i : Fin n) :
    ((l.map fun v => fun i => 1 / v i).getD c (fun _ => 0)) i =
      1 / (l.getD c (fun _ => 0)) i := by
  induction l generalizing c with
  | nil => simp
  | cons a t ih =>
    cases c with
    | zero => rfl
    | succ m => simpa using ih m

/-- C7: `expected_return_time(M, backward=b)` is the elementwise reciprocal
of `diffusion(M, P0=None, steps=None, backward=b)` at every entry where the
stationary distribution is positive (it returns `1 / steady_state`
verbatim). -/
theorem expected_return_time_reciprocal {n : ℕ}
    (eig : Mat n → List (ℚ × (Fin n → ℚ))) (M : Mat n) (b : Bool)
    (c : ℕ) (i : Fin n)
    (_hpos : 0 < ((diffusion_model eig M b).getD c (fun _ => 0)) i) :
    ((expected_return_time_model eig M b).getD c (fun _ => 0)) i =
      1 / ((diffusion_model eig M b).getD c (fun _ => 0)) i := by
  unfold expected_return_time_model
  exact getD_map_reciprocal (diffusion_model eig M b) c i

/-- C7 witness: at `M1 = [[1]]` with decomposition `[(1, [1])]`, forward
direction, the stationary distribution entry is 1 > 0 and the expected
return time entry is its reciprocal. -/
theorem expected_return_time_reciprocal_witness :
    0 < ((diffusion_model (fun _ => pairs1) M1 false).getD 0 (fun _ => 0)) 0 ∧
      ((expected_return_time_model (fun _ => pairs1) M1 false).getD 0 (fun _ => 0)) 0 =
        1 / ((diffusion_model (fun _ => pairs1) M1 false).getD 0 (fun _ => 0)) 0 := by
  have hpos : 0 < ((diffusion_model (fun _ => pairs1) M1 false).getD 0 (fun _ => 0)) 0 := by
    norm_num [diffusion_model, diffusionEigenBranch, eigvecColumns, pairs1,
      npIsClose1, List.filter, clipNegNoise, npIsCloseZero, Fin.sum_univ_one,
      List.getD, List.get?]
  exact ⟨hpos, expected_return_time_reciprocal (fun _ => pairs1) M1 false 0 0 hpos⟩

/-- Dividing every mapped value by a constant divides the sum. -/
lemma sum_map_div {α : Type} (l : List α) (f : α → ℚ) (c : ℚ) :
    (l.map fun x => f x / c).sum = (l.map f).sum / c := by
  induction l with
  | nil => simp
  | cons a t ih => simp [ih, add_div]

/-- The sum of a pointwise addition splits. -/
lemma sum_map_add_split {α : Type} (l : List α) (f g : α → ℚ) :
    (l.map fun x => f x + g x).sum = (l.map f).sum + (l.map g).sum := by
  induction l with
  | nil => simp
  | cons a t ih => simp [ih]; ring

/-- The sum of pointwise negations negates the sum. -/
lemma sum_map_neg {α : Type} (l : List α) (f : α → ℚ) :
    (l.map fun x => -f x).sum = -(l.map f).sum := by
  induction l with
  | nil => simp
  | cons a t ih => simp [ih]; ring

/-- Summing a function that vanishes off a Boolean predicate equals summing
over the filtered list. -/
lemma sum_map_ite {α : Type} (p : α → Bool) (f : α → ℚ) (l : List α) :
    (l.map fun x => if p x then f x else 0).sum = ((l.filter p).map f).sum := by
  induction l with
  | nil => simp
  | cons a t ih =>
    rw [List.filter_cons]
    by_cases h : p a
    · simp [h, ih]
    · simp [h, ih]

/-- A sign group's softmax denominator is positive when the group is
nonempty and the exponential is positive. -/
lemma negGroupDenom_pos {expf : ℚ → ℚ} (hexp : ∀ x, 0 < expf x)
    (i_vals : List ℚ) (s : ℚ) (hne : negGroupVals i_vals s ≠ []) :
    0 < negGroupDenom expf i_vals s := by
  apply List.sum_pos
  · intro x hx
    rcases List.mem_map.mp hx with ⟨v, -, rfl⟩
    exact hexp _
  · simpa using hne

/-- Within one nonempty sign group, the softmax weights divided by the group
denominator sum to 1. -/
lemma negGroup_softmax_sum {expf : ℚ → ℚ} (hexp : ∀ x, 0 < expf x)
    (i_vals : List ℚ) (s : ℚ) (hne : negGroupVals i_vals s ≠ []) :
    ((negGroupVals i_vals s).map
      (fun v => negGroupWeight expf i_vals s v / negGroupDenom expf i_vals s)).sum = 1 := by
  rw [sum_map_div]
  exact div_self (ne_of_gt (negGroupDenom_pos hexp i_vals s hne))

lemma expf0_pos : ∀ x, 0 < expf0 x := fun x =>
  add_pos_of_pos_of_nonneg one_pos (abs_nonneg x)

/-- The row value stored by the `neg_cells_trick=True` branch at each
position splits into a positive-group part and a negative-group part. -/
lemma empiricalValsNeg_sum_split (expf : ℚ → ℚ) (i_vals : List ℚ) :
    (empiricalValsNeg expf i_vals).sum =
      ((negGroupVals i_vals 1).map
        (fun v => negGroupWeight expf i_vals 1 v / negGroupDenom expf i_vals 1)).sum
      - ((negGroupVals i_vals (-1)).map
        (fun v => negGroupWeight expf i_vals (-1) v / negGroupDenom expf i_vals (-1))).sum := by
  unfold empiricalValsNeg
  have hpt : ∀ v : ℚ,
      (if signQ v = 0 then 0
       else signQ v *
         (negGroupWeight expf i_vals (signQ v) v / negGroupDenom expf i_vals (signQ v)))
      = (if decide (signQ v = 1) then
           negGroupWeight expf i_vals 1 v / negGroupDenom expf i_vals 1 else 0)
        + (if decide (signQ v = (-1 : ℚ)) then
           -(negGroupWeight expf i_vals (-1) v / negGroupDenom expf i_vals (-1)) else 0) := by
    intro v
    rcases lt_trichotomy 0 v with h | h | h
    · have hs : signQ v = 1 := by unfold signQ; rw [if_pos h]
      rw [hs]; norm_num
    · have hs : signQ v = 0 := by
        subst h
        norm_num [signQ]
      rw [hs]; norm_num
    · have hs : signQ v = -1 := by
        unfold signQ; rw [if_neg (by exact not_lt.mpr (le_of_lt h)), if_pos h]
      rw [hs]; norm_num
  rw [List.map_congr_left fun v _ => hpt v, sum_map_add_split, sum_map_ite,
    sum_map_ite]
  have hneg :
      ((List.filter (fun v => decide (signQ v = (-1 : ℚ))) i_vals).map
        (fun v => -(negGroupWeight expf i_vals (-1) v / negGroupDenom expf i_vals (-1)))).sum
      = -(((negGroupVals i_vals (-1)).map
        (fun v => negGroupWeight expf i_vals (-1) v / negGroupDenom expf i_vals (-1))).sum) := by
    rw [sum_map_neg]; rfl
  rw [hneg, sub_eq_add_neg]
  rfl

/-- C6: in the `neg_cells_trick=True` branch, positive- and
negative-correlation neighbors are normalized in separate softmax groups:
the softmax weights of the positive group sum to 1 and those of the negative
group sum to 1, each over its own group denominator, and no correlation
value belongs to both groups. -/
theorem neg_trick_groupwise_softmax (expf : ℚ → ℚ) (hexp : ∀ x, 0 < expf x)
    (i_vals : List ℚ) :
    (negGroupVals i_vals 1 ≠ [] →
      ((negGroupVals i_vals 1).map
        (fun v => negGroupWeight expf i_vals 1 v / negGroupDenom expf i_vals 1)).sum = 1) ∧
    (negGroupVals i_vals (-1) ≠ [] →
      ((negGroupVals i_vals (-1)).map
        (fun v => negGroupWeight expf i_vals (-1) v / negGroupDenom expf i_vals (-1))).sum = 1) ∧
    (∀ v : ℚ, ¬(v ∈ negGroupVals i_vals 1 ∧ v ∈ negGroupVals i_vals (-1))) := by
  refine ⟨fun h => negGroup_softmax_sum hexp i_vals 1 h,
          fun h => negGroup_softmax_sum hexp i_vals (-1) h, ?_⟩
  rintro v ⟨h1, h2⟩
  have e1 : signQ v = 1 := by simpa using (List.mem_filter.mp h1).2
  have e2 : signQ v = -1 := by simpa using (List.mem_filter.mp h2).2
  rw [e1] at e2
  norm_num at e2

/-- C6 witness at `i_vals = [1/2, -1/2]` with the concrete positive
exponential `expf0`: both groups are nonempty and their softmax weights sum
to 1 separately. -/
theorem neg_trick_groupwise_softmax_witness :
    (∀ x, 0 < expf0 x) ∧
      negGroupVals [1/2, -1/2] 1 ≠ [] ∧ negGroupVals [1/2, -1/2] (-1) ≠ [] ∧
      ((negGroupVals [1/2, -1/2] 1).map
        (fun v => negGroupWeight expf0 [1/2, -1/2] 1 v /
          negGroupDenom expf0 [1/2, -1/2] 1)).sum = 1 ∧
      ((negGroupVals [1/2, -1/2] (-1)).map
        (fun v => negGroupWeight expf0 [1/2, -1/2] (-1) v /
          negGroupDenom expf0 [1/2, -1/2] (-1))).sum = 1 := by
  have h1 : negGroupVals ([1/2, -1/2] : List ℚ) 1 ≠ [] := by
    norm_num [negGroupVals, signQ, List.filter]
  have h2 : negGroupVals ([1/2, -1/2] : List ℚ) (-1) ≠ [] := by
    norm_num [negGroupVals, signQ, List.filter]
  exact ⟨expf0_pos, h1, h2,
    (neg_trick_groupwise_softmax expf0 expf0_pos [1/2, -1/2]).1 h1,
    (neg_trick_groupwise_softmax expf0 expf0_pos [1/2, -1/2]).2.1 h2⟩

/-- C1 counterexample: with `neg_cells_trick=True` and one positive and one
negative correlation (`i_vals = [1/2, -1/2]`), the row stored into the
transition matrix is `[1, -1]`: it sums to 0, not 1 — the stored matrix is
not row-stochastic for any positive exponential. -/
theorem neg_trick_row_sum_zero_cex :
    (∀ x, 0 < expf0 x) ∧ (empiricalValsNeg expf0 [1/2, -1/2]).sum = 0 ∧
      (empiricalValsNeg expf0 [1/2, -1/2]).sum ≠ 1 := by
  have h0 : (empiricalValsNeg expf0 [1/2, -1/2]).sum = 0 := by
    norm_num [empiricalValsNeg, negGroupWeight, negGroupDenom, negGroupVals,
      maxAbsList, signQ, expf0, List.filter]
  exact ⟨expf0_pos, h0, by rw [h0]; norm_num⟩

/-- C1 amended: the row is stochastic in the `neg_cells_trick=False` branch
(for a cell with at least one neighbor and a nonzero correlation); in the
`neg_cells_trick=True` branch the stored row entries are SIGNED, and a row
whose neighbors have both positive and negative correlations sums to 0
(the positive group contributes +1 and the negative group -1). -/
theorem empirical_row_sums_amended (expf : ℚ → ℚ) (hexp : ∀ x, 0 < expf x)
    (i_vals : List ℚ) :
    (i_vals ≠ [] → maxAbsList i_vals ≠ 0 →
      (empiricalValsPlain expf i_vals).sum = 1) ∧
    (negGroupVals i_vals 1 ≠ [] → negGroupVals i_vals (-1) ≠ [] →
      (empiricalValsNeg expf i_vals).sum = 0) := by
  constructor
  · intro hne _
    have hpos : 0 < (i_vals.map fun v => expf (v / maxAbsList i_vals)).sum := by
      apply List.sum_pos
      · intro x hx
        rcases List.mem_map.mp hx with ⟨v, -, rfl⟩
        exact hexp _
      · simpa using hne
    show ((i_vals.map fun v => expf (v / maxAbsList i_vals)).map
        fun x => x / (i_vals.map fun v => expf (v / maxAbsList i_vals)).sum).sum = 1
    have hdiv := sum_map_div (i_vals.map fun v => expf (v / maxAbsList i_vals))
      (fun x => x) (i_vals.map fun v => expf (v / maxAbsList i_vals)).sum
    simp only [List.map_id'] at hdiv
    rw [hdiv]
    exact div_self (ne_of_gt hpos)
  · intro h1 h2
    rw [empiricalValsNeg_sum_split expf i_vals,
      negGroup_softmax_sum hexp i_vals 1 h1,
      negGroup_softmax_sum hexp i_vals (-1) h2]
    norm_num

/-- C1 amended, witness at `i_vals = [1/2, -1/2]` with the concrete positive
exponential `expf0`: the plain branch row sums to 1, the neg-trick branch
row sums to 0. -/
theorem empirical_row_sums_amended_witness :
    (∀ x, 0 < expf0 x) ∧ ([1/2, -1/2] : List ℚ) ≠ [] ∧
      maxAbsList [1/2, -1/2] ≠ 0 ∧
      negGroupVals [1/2, -1/2] 1 ≠ [] ∧ negGroupVals [1/2, -1/2] (-1) ≠ [] ∧
      (empiricalValsPlain expf0 [1/2, -1/2]).sum = 1 ∧
      (empiricalValsNeg expf0 [1/2, -1/2]).sum = 0 := by
  have hne : ([1/2, -1/2] : List ℚ) ≠ [] := by simp
  have hs : maxAbsList ([1/2, -1/2] : List ℚ) ≠ 0 := by
    norm_num [maxAbsList]
  have h1 : negGroupVals ([1/2, -1/2] : List ℚ) 1 ≠ [] := by
    norm_num [negGroupVals, signQ, List.filter]
  have h2 : negGroupVals ([1/2, -1/2] : List ℚ) (-1) ≠ [] := by
    norm_num [negGroupVals, signQ, List.filter]
  exact ⟨expf0_pos, hne, hs, h1, h2,
    (empirical_row_sums_amended expf0 expf0_pos [1/2, -1/2]).1 hne hs,
    (empirical_row_sums_amended expf0 expf0_pos [1/2, -1/2]).2 h1 h2⟩

lemma scaleV_one (d : ℚ × ℚ) : scaleV 1 d = d := by
  cases d; simp [scaleV]

/-- When every correlation is strictly positive the positive sign group is
the whole neighbor list. -/
lemma negGroupVals_pos_all (i_vals : List ℚ) (hpos : ∀ v ∈ i_vals, 0 < v) :
    negGroupVals i_vals 1 = i_vals := by
  unfold negGroupVals
  rw [List.filter_eq_self]
  intro v hv
  simp [signQ, hpos v hv]

/-- When every correlation is strictly positive the negative sign group is
empty. -/
lemma negGroupVals_pos_none (i_vals : List ℚ) (hpos : ∀ v ∈ i_vals, 0 < v) :
    negGroupVals i_vals (-1) = [] := by
  unfold negGroupVals
  rw [List.filter_eq_nil_iff]
  intro v hv
  simp only [signQ, if_pos (hpos v hv), decide_eq_true_eq]
  norm_num

/-- With all-positive correlations the positive group's softmax denominator
coincides with the plain branch's denominator. -/
lemma negGroupDenom_all_pos (expf : ℚ → ℚ) (i_vals : List ℚ)
    (hpos : ∀ v ∈ i_vals, 0 < v) :
    negGroupDenom expf i_vals 1 =
      (i_vals.map fun v => expf (v / maxAbsList i_vals)).sum := by
  unfold negGroupDenom negGroupWeight
  rw [negGroupVals_pos_all i_vals hpos]
  apply congrArg List.sum
  apply List.map_congr_left
  intro v hv
  rw [abs_of_pos (hpos v hv)]

/-- C10, row part: with all-positive correlations the `neg_cells_trick=True`
branch stores the same row values as the plain branch. -/
lemma empiricalValsNeg_pos_eq_plain (expf : ℚ → ℚ) (i_vals : List ℚ)
    (hpos : ∀ v ∈ i_vals, 0 < v) :
    empiricalValsNeg expf i_vals = empiricalValsPlain expf i_vals := by
  unfold empiricalValsNeg
  show _ = ((i_vals.map fun v => expf (v / maxAbsList i_vals)).map
    fun x => x / (i_vals.map fun v => expf (v / maxAbsList i_vals)).sum)
  rw [List.map_map]
  apply List.map_congr_left
  intro v hv
  have hs : signQ v = 1 := by simp [signQ, hpos v hv]
  rw [hs, if_neg (by norm_num), one_mul]
  unfold negGroupWeight
  rw [negGroupVals_pos_all i_vals hpos, abs_of_pos (hpos v hv),
    negGroupDenom_all_pos expf i_vals hpos]
  rfl

/-- With all-positive correlations the negative group of the drift loop is
empty, so its `continue` contributes nothing. -/
lemma deltaNegGroup_neg_empty (expf : ℚ → ℚ) (normf : ℚ × ℚ → ℚ)
    (i_vals : List ℚ) (disp : List (ℚ × ℚ)) (hpos : ∀ v ∈ i_vals, 0 < v) :
    deltaNegGroup expf normf i_vals disp (-1) = (0, 0) := by
  have hg : ((i_vals.zip disp).filter fun p => decide (signQ p.1 = (-1 : ℚ))) = [] := by
    rw [List.filter_eq_nil_iff]
    rintro ⟨v, d⟩ hv
    have hmem := (List.of_mem_zip hv).1
    simp only [signQ, if_pos (hpos v hmem), decide_eq_true_eq]
    norm_num
  simp only [deltaNegGroup, hg]
  simp

/-- With all-positive correlations the positive group of the drift loop is
the whole neighbor list and contributes exactly half of what the plain
branch computes. -/
lemma deltaNegGroup_pos_all (expf : ℚ → ℚ) (normf : ℚ × ℚ → ℚ)
    (i_vals : List ℚ) (disp : List (ℚ × ℚ))
    (hlen : disp.length = i_vals.length) (hpos : ∀ v ∈ i_vals, 0 < v)
    (hne : i_vals ≠ []) :
    deltaNegGroup expf normf i_vals disp 1 =
      scaleV (1/2) (deltaPlain expf normf i_vals disp) := by
  have hg : ((i_vals.zip disp).filter fun p => decide (signQ p.1 = (1 : ℚ)))
      = i_vals.zip disp := by
    rw [List.filter_eq_self]
    rintro ⟨v, d⟩ hv
    have hmem := (List.of_mem_zip hv).1
    simp [signQ, hpos v hmem]
  have hzipne : i_vals.zip disp ≠ [] := by
    cases i_vals with
    | nil => exact absurd rfl hne
    | cons a t =>
      cases disp with
      | nil => simp at hlen
      | cons b s => simp [List.zip]
  have hfst : (i_vals.zip disp).map Prod.fst = i_vals :=
    List.map_fst_zip i_vals disp (le_of_eq hlen.symm)
  have hD : ((i_vals.zip disp).map fun p => expf (|p.1| / maxAbsList i_vals)).sum
      = (i_vals.map fun v => expf (v / maxAbsList i_vals)).sum := by
    have h1 : ((i_vals.zip disp).map fun p => expf (|p.1| / maxAbsList i_vals))
        = ((i_vals.zip disp).map Prod.fst).map fun v => expf (|v| / maxAbsList i_vals) := by
      rw [List.map_map]
      rfl
    rw [h1, hfst]
    apply congrArg List.sum
    apply List.map_congr_left
    intro v hv
    rw [abs_of_pos (hpos v hv)]
  have hk : (i_vals.zip disp).length = i_vals.length := by
    rw [List.length_zip, hlen, min_self]
  have hplain : deltaPlain expf normf i_vals disp
      = ((i_vals.zip disp).map fun p =>
          scaleV (expf (p.1 / maxAbsList i_vals) /
              (i_vals.map fun v => expf (v / maxAbsList i_vals)).sum
            - 1 / (i_vals.length : ℚ))
            (unitize normf p.2)).sum := by
    unfold deltaPlain empiricalValsPlain
    show ((((i_vals.map fun v => expf (v / maxAbsList i_vals)).map fun x =>
        x / (i_vals.map fun v => expf (v / maxAbsList i_vals)).sum).zip disp).map
        fun pd => scaleV (pd.1 - 1 / (i_vals.length : ℚ)) (unitize normf pd.2)).sum = _
    rw [List.map_map, List.zip_map_left, List.map_map]
    rfl
  unfold deltaNegGroup
  simp only [hg]
  rw [if_neg (by simpa [List.isEmpty_iff] using hzipne)]
  rw [hfst, hD, hk, hplain]
  apply congrArg (scaleV (1/2))
  apply congrArg List.sum
  apply List.map_congr_left
  rintro ⟨v, d⟩ hv
  have hmem := (List.of_mem_zip hv).1
  rw [abs_of_pos (hpos v hmem), scaleV_one]

/-- C10: for a cell all of whose neighbor correlations are strictly
positive, the `neg_cells_trick=True` branch stores the same transition
matrix row as the plain branch, but computes exactly HALF of the plain
branch's drift vector (the `0.5` factor of line 398 applies with only the
positive group present). -/
theorem neg_trick_all_positive_half_drift (expf : ℚ → ℚ) (normf : ℚ × ℚ → ℚ)
    (i_vals : List ℚ) (disp : List (ℚ × ℚ))
    (hlen : disp.length = i_vals.length) (hpos : ∀ v ∈ i_vals, 0 < v) :
    empiricalValsNeg expf i_vals = empiricalValsPlain expf i_vals ∧
      deltaNegTrick expf normf i_vals disp =
        scaleV (1/2) (deltaPlain expf normf i_vals disp) := by
  refine ⟨empiricalValsNeg_pos_eq_plain expf i_vals hpos, ?_⟩
  by_cases hne : i_vals = []
  · subst hne
    have hd : disp = [] := List.length_eq_zero.mp (by simpa using hlen)
    subst hd
    simp [deltaNegTrick, deltaNegGroup, deltaPlain, empiricalValsPlain, scaleV]
  · unfold deltaNegTrick
    rw [deltaNegGroup_neg_empty expf normf i_vals disp hpos,
      deltaNegGroup_pos_all expf normf i_vals disp hlen hpos hne]
    simp [scaleV]

/-- C10 witness at a single neighbor with correlation 1 and displacement
(1, 0), with the concrete positive exponential and norm stand-ins. -/
theorem neg_trick_all_positive_half_drift_witness :
    ([((1 : ℚ), (0 : ℚ))] : List (ℚ × ℚ)).length = ([1] : List ℚ).length ∧
      (∀ v ∈ ([1] : List ℚ), 0 < v) ∧
      empiricalValsNeg expf0 [1] = empiricalValsPlain expf0 [1] ∧
      deltaNegTrick expf0 normf0 [1] [((1 : ℚ), (0 : ℚ))] =
        scaleV (1/2) (deltaPlain expf0 normf0 [1] [((1 : ℚ), (0 : ℚ))]) := by
  have hlen : ([((1 : ℚ), (0 : ℚ))] : List (ℚ × ℚ)).length = ([1] : List ℚ).length := rfl
  have hpos : ∀ v ∈ ([1] : List ℚ), 0 < v := by norm_num
  exact ⟨hlen, hpos,
    (neg_trick_all_positive_half_drift expf0 normf0 [1] [((1 : ℚ), (0 : ℚ))] hlen hpos).1,
    (neg_trick_all_positive_half_drift expf0 normf0 [1] [((1 : ℚ), (0 : ℚ))] hlen hpos).2⟩

lemma abs_chooseSign (d : ℕ) : |chooseSign d| = 1 := by
  unfold chooseSign
  split <;> simp

/-- The draw-driven shuffle permutes the row. -/
lemma shuffleDraws_perm (draws : List ℕ) (l : List ℚ) :
    (shuffleDraws draws l).Perm l := by
  induction draws generalizing l with
  | nil => cases l <;> simp [shuffleDraws]
  | cons d ds ih =>
    cases l with
    | nil => simp [shuffleDraws]
    | cons a t =>
      have hlt : d % (a :: t).length < (a :: t).length :=
        Nat.mod_lt _ (by simp)
      have hx : (a :: t).getD (d % (a :: t).length) 0 ∈ a :: t := by
        rw [List.getD_eq_getElem _ _ hlt]
        exact List.getElem_mem hlt
      show ((a :: t).getD (d % (a :: t).length) 0 ::
        shuffleDraws ds ((a :: t).erase ((a :: t).getD (d % (a :: t).length) 0))).Perm (a :: t)
      exact ((ih _).cons _).trans (List.perm_cons_erase hx).symm

/-- Sign flips do not change absolute values. -/
lemma applySigns_map_abs (f : ℕ → ℕ) (l : List ℚ) :
    ∀ k, ((applySigns f k l).map fun x => |x|) = l.map fun x => |x| := by
  induction l with
  | nil => intro k; rfl
  | cons x xs ih =>
    intro k
    show (|chooseSign (f k) * x| :: (applySigns f (k + 1) xs).map fun y => |y|) = _
    rw [abs_mul, abs_chooseSign, one_mul, ih (k + 1)]
    rfl

/-- One row keeps its multiset of absolute values. -/
lemma permuteRowNsign_abs_perm (sd : List ℕ) (f : ℕ → ℕ) (row : List ℚ) :
    (((permuteRowNsign sd f row).map fun x => |x|)).Perm (row.map fun x => |x|) := by
  unfold permuteRowNsign
  rw [applySigns_map_abs]
  exact (shuffleDraws_perm sd row).map fun x => |x|

lemma permuteRowsNsignGo_forall₂ (draws : ℕ → List ℕ × (ℕ → ℕ)) (A : List (List ℚ)) :
    ∀ i, List.Forall₂ (fun r rp => ((rp.map fun x => |x|)).Perm (r.map fun x => |x|))
      A (permuteRowsNsignGo draws i A) := by
  induction A with
  | nil => intro i; exact List.Forall₂.nil
  | cons r rs ih =>
    intro i
    exact List.Forall₂.cons (permuteRowNsign_abs_perm (draws i).1 (draws i).2 r) (ih (i + 1))

/-- C8: after `permute_rows_nsign` every row holds a signed permutation of
its original entries, so the multiset of absolute values of each row is
preserved; and the output is a deterministic function of the draw streams,
so two runs from the same seed (hence the same streams) coincide. -/
theorem permute_rows_nsign_abs_multiset (draws : ℕ → List ℕ × (ℕ → ℕ))
    (A : List (List ℚ)) :
    List.Forall₂ (fun r rp => ((rp.map fun x => |x|)).Perm (r.map fun x => |x|))
      A (permute_rows_nsign_model draws A) ∧
    (∀ draws2, draws = draws2 →
      permute_rows_nsign_model draws A = permute_rows_nsign_model draws2 A) := by
  refine ⟨permuteRowsNsignGo_forall₂ draws A 0, ?_⟩
  rintro draws2 rfl
  rfl

/-- C8 witness at the one-row matrix `[[2, -3]]` with concrete draw
streams. -/
theorem permute_rows_nsign_abs_multiset_witness :
    List.Forall₂ (fun r rp => ((rp.map fun x => |x|)).Perm (r.map fun x => |x|))
      [[(2 : ℚ), -3]] (permute_rows_nsign_model draws0 [[(2 : ℚ), -3]]) ∧
      permute_rows_nsign_model draws0 [[(2 : ℚ), -3]] =
        permute_rows_nsign_model draws0 [[(2 : ℚ), -3]] :=
  ⟨(permute_rows_nsign_abs_multiset draws0 [[(2 : ℚ), -3]]).1,
   (permute_rows_nsign_abs_multiset draws0 [[(2 : ℚ), -3]]).2 draws0 rfl⟩

/-- C9 counterexample: calling `cell_velocities` with the unknown method
name "correlation" does not fail at entry with an invalid-input error:
gene-selection preparation already writes into the container, and the
failure is an `UnboundLocalError` at the transition-matrix store. -/
theorem unknown_method_unbound_cex :
    (cell_velocities_skeleton "correlation").error = some PyErr.unboundLocal ∧
      (cell_velocities_skeleton "correlation").error ≠ some PyErr.invalidInput ∧
      (cell_velocities_skeleton "correlation").writes ≠ [] ∧
      "uns.transition_matrix" ∉ (cell_velocities_skeleton "correlation").writes := by
  refine ⟨rfl, ?_, ?_, ?_⟩
  · simp [cell_velocities_skeleton]
  · simp [cell_velocities_skeleton]
  · simp [cell_velocities_skeleton]

/-- C9 amended: for every method name outside
{analytical, empirical, transform}, `cell_velocities` runs its input
preparation (writing the gene-selection mask into the container), reaches
the unconditional result-store section, and raises `UnboundLocalError`
there because `T` was never bound; no entry-time validation and no
`InvalidInput` error exist, though no result key has been written when the
failure occurs. -/
theorem unknown_method_late_failure_amended (method : String)
    (h : method ∉ knownKernelMethods) :
    (cell_velocities_skeleton method).error = some PyErr.unboundLocal ∧
      (cell_velocities_skeleton method).writes = ["var.use_for_velocity"] ∧
      (cell_velocities_skeleton method).writes ≠ [] ∧
      "uns.transition_matrix" ∉ (cell_velocities_skeleton method).writes := by
  have h1 : method ≠ "analytical" := fun e => h (by rw [e]; simp [knownKernelMethods])
  have h2 : method ≠ "empirical" := fun e => h (by rw [e]; simp [knownKernelMethods])
  have h3 : method ≠ "transform" := fun e => h (by rw [e]; simp [knownKernelMethods])
  simp [cell_velocities_skeleton, h1, h2, h3]

/-- C9 amended, witness at the unknown method name "correlation". -/
theorem unknown_method_late_failure_amended_witness :
    "correlation" ∉ knownKernelMethods ∧
      (cell_velocities_skeleton "correlation").error = some PyErr.unboundLocal ∧
      (cell_velocities_skeleton "correlation").writes = ["var.use_for_velocity"] ∧
      (cell_velocities_skeleton "correlation").writes ≠ [] ∧
      "uns.transition_matrix" ∉ (cell_velocities_skeleton "correlation").writes := by
  have h : "correlation" ∉ knownKernelMethods := by simp [knownKernelMethods]
  have hc := unknown_method_late_failure_amended "correlation" h
  exact ⟨h, hc.1, hc.2.1, hc.2.2.1, hc.2.2.2⟩

end Dynamo
